import Mathlib

/-!
Verification of the platforma service-lifecycle framework core.

This file gives a shallow embedding, in Lean 4, of the parts of the Go
sources that the specification talks about:

* the migration service (`database/service.go`): applying a batch of
  migrations against a bookkeeping log, with compensating reverts on
  failure;
* the migration file parser (`database/migration_fs.go`);
* the health registry and the service-supervision loop
  (`application/application.go`, `application/health.go`);
* the scheduler constructor and its eager cron-expression validation
  (`scheduler/scheduler.go`); the cron grammar itself lives in an external
  library, so it is modelled from the specification text.

Effectful Go code is embedded as pure functions over an explicit store
oracle: the success or failure of every SQL execution and of every
bookkeeping insert is given by boolean-valued functions, and each embedded
operation returns the ordered trace of database events it performed
together with its Go return value.
-/

set_option maxHeartbeats 1600000

namespace Platforma

/-! ## Data model (database/migration.go) -/

/-- Embedding of the Go struct `Migration` from `database/migration.go`:
an id, the Up and Down SQL texts, and the owning repository name (assigned
by the service, not by the parser). -/
structure Migration where
  ID : String
  Up : String
  Down : String
  repository : String
deriving Repr, DecidableEq

/-- Embedding of the Go struct `migrationLog` from `database/migration.go`,
projected to the fields the apply protocol inspects; the wall-clock
`Timestamp` column is never read back by the code under verification. -/
structure MigrationLog where
  Repository : String
  MigrationID : String
deriving Repr, DecidableEq

/-- Store oracle: `execOk q` tells whether `repository.executeQuery` on the
SQL text `q` succeeds, and `saveOk repo id` tells whether
`repository.saveMigrationLog` for the row `(repo, id)` succeeds. -/
structure Store where
  execOk : String → Bool
  saveOk : String → String → Bool

/-- One observable database action performed by the migration service:
executing an Up statement, executing a Down statement, or attempting a
bookkeeping insert. -/
inductive DBEvent where
  | execUp (m : Migration)
  | execDown (m : Migration)
  | insertLog (repo mid : String)
deriving Repr, DecidableEq

/-- Embedding of the `slices.ContainsFunc` test in `applyMigrations`
(`database/service.go`): whether the log snapshot has a row whose
repository and migration id match. -/
def appliedContains (logs : List MigrationLog) (repo mid : String) : Bool :=
  logs.any fun l => l.Repository == repo && l.MigrationID == mid

/-! ## Migration service (database/service.go) -/

/-- Embedding of `service.revertMigrations`: walk the applied list
backwards, execute each Down statement, and join the individual errors
into one master error that the caller only logs.  Returns the event trace
(in execution order) and whether the joined error is non-nil. -/
def revertMigrations (st : Store) : List Migration → List DBEvent × Bool
  | [] => ([], false)
  | m :: rest =>
      let r := revertMigrations st rest
      (r.1 ++ [DBEvent.execDown m], r.2 || !(st.execOk m.Down))

/-- Embedding of `service.saveMigrationLogs`: insert one bookkeeping row
per applied migration, in order, collecting (not raising) the individual
errors.  Returns the trace of insert attempts, the rows that were actually
persisted, and whether the joined error is non-nil. -/
def saveMigrationLogs (st : Store) : List Migration → List DBEvent × List MigrationLog × Bool
  | [] => ([], [], false)
  | m :: rest =>
      let ok := st.saveOk m.repository m.ID
      let r := saveMigrationLogs st rest
      (DBEvent.insertLog m.repository m.ID :: r.1,
       (if ok then [MigrationLog.mk m.repository m.ID] else []) ++ r.2.1,
       (!ok) || r.2.2)

/-- Loop body of `service.applyMigrations`: for each migration, skip it if
its `(repository, ID)` pair is in the log snapshot, otherwise execute its
Up; on the first Up failure revert the migrations applied so far in this
call and stop with the failing migration as error.  Returns the event
trace, the applied-in-this-batch list, and the error (`some m` is the
wrapped Up failure of `m`; `none` is a nil error). -/
def applyMigrationsLoop (st : Store) (logs : List MigrationLog) (applied : List Migration) :
    List Migration → List DBEvent × List Migration × Option Migration
  | [] => ([], applied, none)
  | m :: rest =>
      if appliedContains logs m.repository m.ID then
        applyMigrationsLoop st logs applied rest
      else if st.execOk m.Up then
        let r := applyMigrationsLoop st logs (applied ++ [m]) rest
        (DBEvent.execUp m :: r.1, r.2)
      else
        let rev := revertMigrations st applied
        (DBEvent.execUp m :: rev.1, applied, some m)

/-- Result of one migration-service call: the ordered database event
trace, the bookkeeping rows the call persisted, and the returned error
(`none` is a nil return). -/
structure MigrateOutcome where
  events : List DBEvent
  inserted : List MigrationLog
  failed : Option Migration
deriving Repr, DecidableEq

/-- Embedding of `service.applyMigrations`: run the loop from an empty
applied list; on success persist one row per applied migration (insert
failures are only logged) and return nil; on an Up failure return that
failure without persisting anything. -/
def applyMigrations (st : Store) (migrations : List Migration) (logs : List MigrationLog) :
    MigrateOutcome :=
  match applyMigrationsLoop st logs [] migrations with
  | (evs, applied, none) =>
      let s := saveMigrationLogs st applied
      ⟨evs ++ s.1, s.2.1, none⟩
  | (evs, _, some m) => ⟨evs, [], some m⟩

/-- Loop body of `service.migrateSelf`: identical to the
`applyMigrations` loop except that the already-applied test is against the
reserved repository name `platforma_migration` and the applied copy gets
that repository name assigned. -/
def migrateSelfLoop (st : Store) (logs : List MigrationLog) (applied : List Migration) :
    List Migration → List DBEvent × List Migration × Option Migration
  | [] => ([], applied, none)
  | m :: rest =>
      if appliedContains logs "platforma_migration" m.ID then
        migrateSelfLoop st logs applied rest
      else if st.execOk m.Up then
        let r := migrateSelfLoop st logs
          (applied ++ [{ m with repository := "platforma_migration" }]) rest
        (DBEvent.execUp m :: r.1, r.2)
      else
        let rev := revertMigrations st applied
        (DBEvent.execUp m :: rev.1, applied, some m)

/-- Embedding of `service.migrateSelf`: apply the bootstrap migrations not
yet recorded under the reserved repository name, persist the rows for
those applied (insert failures only logged), and return nil unless some Up
failed. -/
def migrateSelf (st : Store) (bootstraps : List Migration) (logs : List MigrationLog) :
    MigrateOutcome :=
  match migrateSelfLoop st logs [] bootstraps with
  | (evs, applied, none) =>
      let s := saveMigrationLogs st applied
      ⟨evs ++ s.1, s.2.1, none⟩
  | (evs, _, some m) => ⟨evs, [], some m⟩

/-- Modelled from the spec: the database repository file that supplies the
bootstrap migration list (`repo.migrations()` in `database/service.go`) is
not among the sources; section 4.2 of the specification says the service
owns one bootstrap migration, reserved repository `platforma_migration`
and id `init`, whose Up creates the bookkeeping table if absent and whose
Down drops it. -/
def bootstrapMigrations : List Migration :=
  [⟨"init",
    "CREATE TABLE IF NOT EXISTS platforma_migrations (repository VARCHAR, id VARCHAR, timestamp TIMESTAMP)",
    "DROP TABLE platforma_migrations",
    ""⟩]

/-- Result of a full `Database.Migrate` call: the event trace, the content
of the bookkeeping table after the call, and the returned error. -/
structure MigrateResult where
  events : List DBEvent
  table : List MigrationLog
  failed : Option Migration
deriving Repr, DecidableEq

/-- Embedding of `Database.Migrate` from `database/database.go`: first run
the bootstrap (`migrateSelf`), then reload the log table, then apply the
registered repositories batch against the reloaded snapshot. -/
def DatabaseMigrate (st : Store) (bootstraps batch : List Migration)
    (table : List MigrationLog) : MigrateResult :=
  let r1 := migrateSelf st bootstraps table
  match r1.failed with
  | some m => ⟨r1.events, table ++ r1.inserted, some m⟩
  | none =>
      let table1 := table ++ r1.inserted
      let r2 := applyMigrations st batch table1
      ⟨r1.events ++ r2.events, table1 ++ r2.inserted, r2.failed⟩

/-! ## Character-list string utilities

The Go sources use library string helpers (TrimSpace, HasPrefix, splitting
into lines and fields).  They are embedded here as structurally recursive
functions over the character list of a string, so that every definition in
this file evaluates inside the kernel. -/

/-- Model of Go strings.TrimSpace: drop whitespace from both ends. -/
def trimChars (cs : List Char) : List Char :=
  ((cs.dropWhile Char.isWhitespace).reverse.dropWhile Char.isWhitespace).reverse

/-- Whether the second list begins with the first, the model of Go
strings.HasPrefix on character lists. -/
def leadMatch : List Char → List Char → Bool
  | [], _ => true
  | _ :: _, [] => false
  | p :: ps, c :: cs => p == c && leadMatch ps cs

/-- Whether the name ends with the given suffix. -/
def tailMatch (suf s : List Char) : Bool :=
  leadMatch suf.reverse s.reverse

/-- Split a character list at every character satisfying the predicate,
the separators themselves being dropped; an empty input yields one empty
piece, like Go strings.Split. -/
def splitWhen (p : Char → Bool) : List Char → List (List Char)
  | [] => [[]]
  | c :: cs =>
      if p c then [] :: splitWhen p cs
      else
        match splitWhen p cs with
        | piece :: rest => (c :: piece) :: rest
        | [] => [[c]]

/-- Decimal digits to a natural number, the model of the numeric part of
Go strconv parsing: empty input or a non-digit yields none. -/
def charsToNat? (cs : List Char) : Option Nat :=
  if cs.isEmpty || !(cs.all Char.isDigit) then none
  else some (cs.foldl (fun n c => n * 10 + (c.toNat - 48)) 0)

/-- Codepoint-wise lexicographic comparison of character lists. -/
def lexLeChars : List Char → List Char → Bool
  | [], _ => true
  | _ :: _, [] => false
  | a :: as, b :: bs =>
      if a == b then lexLeChars as bs
      else decide (a.toNat < b.toNat)

/-- Codepoint-wise lexicographic order on strings, the order produced by
the Go slices.Sort call on filenames (byte order and codepoint order agree
on UTF-8 text). -/
def lexLe (s t : String) : Bool :=
  lexLeChars s.data t.data

/-! ## Migration file parser (database/migration_fs.go) -/

/-- The marker constants of `database/migration_fs.go`. -/
def markerUp : String := "-- +migrate Up"

/-- The Down marker constant of `database/migration_fs.go`. -/
def markerDown : String := "-- +migrate Down"

/-- The ID override marker constant of `database/migration_fs.go`. -/
def markerID : String := "-- +migrate ID:"

/-- The error values of `database/migration_fs.go`, plus the open failure
that `parseMigrationFile` wraps when the file cannot be opened. -/
inductive ParseError where
  | missingUpSection
  | emptyIDOverride
  | duplicateIDMarker
  | idMarkerNotFirst
  | openFailed
deriving Repr, DecidableEq

instance {ε α : Type} [DecidableEq ε] [DecidableEq α] : DecidableEq (Except ε α) := fun a b =>
  match a, b with
  | Except.error e, Except.error f =>
      if h : e = f then isTrue (by subst h; rfl)
      else isFalse (by intro hh; cases hh; exact h rfl)
  | Except.error _, Except.ok _ => isFalse (by intro hh; cases hh)
  | Except.ok _, Except.error _ => isFalse (by intro hh; cases hh)
  | Except.ok x, Except.ok y =>
      if h : x = y then isTrue (by subst h; rfl)
      else isFalse (by intro hh; cases hh; exact h rfl)

/-- Scanner state of `parseMigrationFile`: the current id, whether it was
overridden, whether any marker was seen, the two section accumulators, and
the active section (`some true` is Up, `some false` is Down, `none` is no
section yet). -/
structure ScanState where
  id : String
  idOverridden : Bool
  anyMarkerSeen : Bool
  up : String
  down : String
  current : Option Bool
deriving Repr, DecidableEq

/-- Embedding of one iteration of the scanner loop in
`parseMigrationFile`: classify the trimmed line as an ID override marker,
an Up marker, a Down marker, or content appended to the active section. -/
def scanLine (s : ScanState) (line : String) : Except ParseError ScanState :=
  let trimmed := trimChars line.data
  if leadMatch markerID.data trimmed then
    if s.idOverridden then
      .error ParseError.duplicateIDMarker
    else if s.anyMarkerSeen then
      .error ParseError.idMarkerNotFirst
    else
      let overrideID := trimChars (trimmed.drop markerID.data.length)
      if overrideID.isEmpty then
        .error ParseError.emptyIDOverride
      else
        .ok { s with id := String.mk overrideID, idOverridden := true, anyMarkerSeen := true }
  else if trimmed == markerUp.data then
    .ok { s with current := some true, anyMarkerSeen := true }
  else if trimmed == markerDown.data then
    .ok { s with current := some false, anyMarkerSeen := true }
  else
    match s.current with
    | some true => .ok { s with up := s.up ++ line ++ "\n" }
    | some false => .ok { s with down := s.down ++ line ++ "\n" }
    | none => .ok s

/-- Run the scanner loop over the remaining lines. -/
def scanLines (s : ScanState) : List String → Except ParseError ScanState
  | [] => .ok s
  | line :: rest => do
      let s1 ← scanLine s line
      scanLines s1 rest

/-- Split file content into the lines the `bufio.Scanner` yields: split on
newline and strip one trailing carriage return per line. -/
def contentLines (content : String) : List String :=
  (splitWhen (fun c => c == '\n') content.data).map fun l =>
    String.mk (if tailMatch ['\r'] l then l.dropLast else l)

/-- The migration id before any override: the filename with a trailing
`.sql` removed. -/
def defaultID (filename : String) : String :=
  if tailMatch ".sql".data filename.data then
    String.mk (filename.data.take (filename.data.length - 4))
  else filename

/-- Embedding of `parseMigrationFile` applied to the content of one file:
the id defaults to the filename without the `.sql` suffix, the lines are
scanned, and an empty trimmed Up section is an error. -/
def parseMigrationContent (filename content : String) : Except ParseError Migration := do
  let init : ScanState :=
    { id := defaultID filename,
      idOverridden := false, anyMarkerSeen := false,
      up := "", down := "", current := none }
  let s ← scanLines init (contentLines content)
  let up := trimChars s.up.data
  if up.isEmpty then
    .error ParseError.missingUpSection
  else
    .ok ⟨s.id, String.mk up, String.mk (trimChars s.down.data), ""⟩

/-- One entry of the virtual file tree handed to `ParseMigrations`: a
name, whether the entry is a directory, and the file content. -/
structure FSFile where
  name : String
  isDir : Bool
  content : String
deriving Repr, DecidableEq

/-- Opening a file of the virtual tree by name. -/
def openFile (fsys : List FSFile) (filename : String) : Option String :=
  (fsys.find? fun f => f.name == filename).map FSFile.content

/-- Embedding of `parseMigrationFile`: open the file by name, then parse
its content. -/
def parseMigrationFile (fsys : List FSFile) (filename : String) :
    Except ParseError Migration :=
  match openFile fsys filename with
  | none => .error ParseError.openFailed
  | some content => parseMigrationContent filename content

/-- Embedding of Go `filepath.Ext`: the suffix of the name starting at its
final dot, or the empty string when the name has no dot. -/
def fileExt (name : String) : String :=
  let revTail := name.toList.reverse.takeWhile (fun c => c != '.')
  if revTail.length == name.length then ""
  else "." ++ String.mk revTail.reverse

/-- The filenames `ParseMigrations` keeps: entries that are not
directories and whose name has extension `.sql`. -/
def sqlFilenames (fsys : List FSFile) : List String :=
  (fsys.filter fun f => !f.isDir && fileExt f.name == ".sql").map FSFile.name

/-- The kept filenames after the `slices.Sort` call of `ParseMigrations`:
ascending lexicographic order. -/
def sortedSqlFilenames (fsys : List FSFile) : List String :=
  (sqlFilenames fsys).insertionSort fun a b => lexLe a b

/-- Parse every file of the sorted name list, failing on the first file
that does not parse. -/
def parseAll (fsys : List FSFile) : List String → Except ParseError (List Migration)
  | [] => .ok []
  | n :: rest => do
      let m ← parseMigrationFile fsys n
      let ms ← parseAll fsys rest
      .ok (m :: ms)

/-- Embedding of `ParseMigrations` from `database/migration_fs.go`: filter
the directory listing down to regular `.sql` files, sort the filenames,
and parse each file in that order. -/
def ParseMigrations (fsys : List FSFile) : Except ParseError (List Migration) :=
  parseAll fsys (sortedSqlFilenames fsys)

/-! ## Health registry (application/health.go) -/

/-- Embedding of the Go `ServiceStatus` string constants. -/
inductive ServiceStatus where
  | notStarted
  | started
  | error
deriving Repr, DecidableEq

/-- Embedding of the Go struct `ServiceHealth`; instants are modelled as
naturals and the opaque `Data` payload as an optional string. -/
structure ServiceHealth where
  Status : ServiceStatus
  StartedAt : Option Nat := none
  StoppedAt : Option Nat := none
  Error : String := ""
  Data : Option String := none
deriving Repr, DecidableEq

/-- Embedding of the Go struct `Health`: the application start instant and
the registry, a map from service name to `ServiceHealth`, modelled as an
association list with pairwise distinct keys in every state the code
builds. -/
structure Health where
  StartedAt : Nat := 0
  Services : List (String × ServiceHealth)
deriving Repr, DecidableEq

/-- Map lookup, the `service, ok := h.Services[serviceName]` idiom. -/
def Health.lookupService (h : Health) (name : String) : Option ServiceHealth :=
  (h.Services.find? fun p => p.1 == name).map Prod.snd

/-- Map write at an existing key: replace the entry stored under the given
name, leaving every other entry and the key set unchanged. -/
def Health.updateService (h : Health) (name : String)
    (f : ServiceHealth → ServiceHealth) : Health :=
  { h with Services := h.Services.map fun p => if p.1 == name then (p.1, f p.2) else p }

/-- Embedding of `Health.StartService`: when the name is registered, set
its status to STARTED and stamp the start instant; otherwise do nothing. -/
def Health.StartService (h : Health) (name : String) (now : Nat) : Health :=
  match h.lookupService name with
  | none => h
  | some _ => h.updateService name fun s =>
      { s with Status := ServiceStatus.started, StartedAt := some now }

/-- Embedding of `Health.FailService`: when the name is registered, set
its status to ERROR, stamp the stop instant and record the error message;
otherwise do nothing. -/
def Health.FailService (h : Health) (name : String) (err : String) (now : Nat) : Health :=
  match h.lookupService name with
  | none => h
  | some _ => h.updateService name fun s =>
      { s with Status := ServiceStatus.error, StoppedAt := some now, Error := err }

/-- Embedding of `Health.SetServiceData`: when the name is registered,
store the payload; otherwise do nothing. -/
def Health.SetServiceData (h : Health) (name : String) (data : String) : Health :=
  match h.lookupService name with
  | none => h
  | some _ => h.updateService name fun s => { s with Data := some data }

/-- The key set of the registry. -/
def Health.serviceNames (h : Health) : List String :=
  h.Services.map Prod.fst

/-! ## Service supervision (application/application.go, run) -/

/-- Outcome of one registered runner inside its supervised goroutine: a
nil return, a non-nil error return, or a panic. -/
inductive RunOutcome where
  | ok
  | fail (msg : String)
  | panicked (msg : String)
deriving Repr, DecidableEq

/-- One registered service: its name and what its runner does. -/
structure ServiceSpec where
  name : String
  outcome : RunOutcome
deriving Repr, DecidableEq

/-- Embedding of the goroutine body launched per service in
`Application.run`: mark the service STARTED, run it, and on a non-nil
error mark it failed.  A panic is caught by the deferred recover, which
only logs it: the health registry is not touched on that path. -/
def runServiceStep (h : Health) (s : ServiceSpec) (now : Nat) : Health :=
  let h1 := h.StartService s.name now
  match s.outcome with
  | RunOutcome.ok => h1
  | RunOutcome.fail e => h1.FailService s.name e now
  | RunOutcome.panicked _ => h1

/-- The health registry after every supervised service goroutine has
completed.  Each name in the Go services map is unique and the goroutine
of a service only writes the entry stored under its own name, so the final
registry does not depend on how the goroutines interleave; the embedding
runs the bodies in list order. -/
def runServices (h : Health) (now : Nat) : List ServiceSpec → Health
  | [] => h
  | s :: rest => runServices (runServiceStep h s now) now rest

/-- The intermediate registry states the supervised run passes through:
after each StartService call and after each goroutine body completes. -/
def runServicesStates (h : Health) (now : Nat) : List ServiceSpec → List Health
  | [] => []
  | s :: rest =>
      let hs := h.StartService s.name now
      let hdone := runServiceStep h s now
      hs :: hdone :: runServicesStates hdone now rest

/-! ## Scheduler construction (scheduler/scheduler.go)

The scheduler validates its cron expression eagerly at construction by
handing it to the cron library; the library is an external dependency, so
its accepted grammar is modelled from section 4.4 of the specification. -/

/-- Modelled from the spec: the five supported cron descriptors. -/
def cronDescriptors : List String :=
  ["@yearly", "@monthly", "@weekly", "@daily", "@hourly"]

/-- Modelled from the spec: the three-letter month aliases. -/
def monthAliases : List (String × Nat) :=
  [("JAN", 1), ("FEB", 2), ("MAR", 3), ("APR", 4), ("MAY", 5), ("JUN", 6),
   ("JUL", 7), ("AUG", 8), ("SEP", 9), ("OCT", 10), ("NOV", 11), ("DEC", 12)]

/-- Modelled from the spec: the three-letter day-of-week aliases. -/
def dowAliases : List (String × Nat) :=
  [("SUN", 0), ("MON", 1), ("TUE", 2), ("WED", 3), ("THU", 4), ("FRI", 5), ("SAT", 6)]

/-- Bounds and aliases of one cron field. -/
structure CronFieldSpec where
  lo : Nat
  hi : Nat
  aliases : List (String × Nat)

/-- Modelled from the spec: the five standard cron fields, minute, hour,
day-of-month, month and day-of-week, with the usual bounds. -/
def cronFieldSpecs : List CronFieldSpec :=
  [⟨0, 59, []⟩, ⟨0, 23, []⟩, ⟨1, 31, []⟩, ⟨1, 12, monthAliases⟩, ⟨0, 6, dowAliases⟩]

/-- A single cron field value: a number within the field bounds or one of
the field aliases. -/
def cronValue (f : CronFieldSpec) (s : List Char) : Option Nat :=
  match charsToNat? s with
  | some n => if f.lo ≤ n && n ≤ f.hi then some n else none
  | none => (f.aliases.find? fun a => a.1.data == s).map Prod.snd

/-- A cron range: a wildcard, a single value, or an ascending pair of
values joined by a dash. -/
def cronRangeOk (f : CronFieldSpec) (s : List Char) : Bool :=
  if s == ['*'] then true
  else
    match splitWhen (fun c => c == '-') s with
    | [a] => (cronValue f a).isSome
    | [a, b] =>
        match cronValue f a, cronValue f b with
        | some x, some y => decide (x ≤ y)
        | _, _ => false
    | _ => false

/-- A cron list item: a range with an optional positive step suffix. -/
def cronItemOk (f : CronFieldSpec) (s : List Char) : Bool :=
  match splitWhen (fun c => c == '/') s with
  | [r] => cronRangeOk f r
  | [r, st] =>
      cronRangeOk f r &&
        (match charsToNat? st with
         | some n => decide (1 ≤ n)
         | none => false)
  | _ => false

/-- A cron field: a comma list of items. -/
def cronFieldOk (f : CronFieldSpec) (s : List Char) : Bool :=
  (splitWhen (fun c => c == ',') s).all fun p => cronItemOk f p

/-- The whitespace-separated fields of a cron expression. -/
def cronFieldsOf (s : String) : List (List Char) :=
  (splitWhen (fun c => c == ' ' || c == '\t') s.data).filter fun t => !t.isEmpty

/-- One term of an interval duration: one or more digits followed by a
unit among ms, s, m and h; returns the remaining characters. -/
def parseDurTerm (cs : List Char) : Option (List Char) :=
  let digits := cs.takeWhile Char.isDigit
  if digits.isEmpty then none
  else
    match cs.dropWhile Char.isDigit with
    | 'm' :: 's' :: r => some r
    | 'm' :: r => some r
    | 's' :: r => some r
    | 'h' :: r => some r
    | _ => none

/-- Fueled loop consuming duration terms until the input is exhausted. -/
def durTermsOk : Nat → List Char → Bool
  | 0, _ => false
  | _ + 1, [] => true
  | fuel + 1, cs =>
      match parseDurTerm cs with
      | none => false
      | some rest => durTermsOk fuel rest

/-- Modelled from the spec: the interval form accepts a human-readable
compound of units from milliseconds through hours, such as 30s or 1h30m. -/
def isValidDuration (cs : List Char) : Bool :=
  !cs.isEmpty && durTermsOk (cs.length + 1) cs

/-- Modelled from the spec: whether the cron library accepts the
expression, per the grammar of section 4.4: a 5-field standard cron
expression with wildcards, ranges, steps, comma lists, field bounds and
three-letter aliases; one of the five descriptors; or the interval form
with a leading at-every keyword. -/
def validCronExpr (expr : String) : Bool :=
  if leadMatch "@every ".data expr.data then
    isValidDuration (expr.data.drop 7)
  else if cronDescriptors.any fun d => d == expr then true
  else if leadMatch ['@'] expr.data then false
  else
    let fs := cronFieldsOf expr
    fs.length == 5 && (List.zip fs cronFieldSpecs).all fun p => cronFieldOk p.2 p.1

/-- Embedding of the scheduler constructor `New`: an empty expression is
rejected up front, every other expression is validated eagerly against
the cron grammar; the result tells whether a scheduler value is created. -/
def SchedulerNew (cronExpr : String) : Bool :=
  if cronExpr == "" then false
  else validCronExpr cronExpr

/-! ## Spec-side predicates and concrete fixtures -/

/-- Whether a migration is not yet recorded in the given log snapshot. -/
def unappliedIn (logs : List MigrationLog) (m : Migration) : Bool :=
  !(appliedContains logs m.repository m.ID)

/-- The bookkeeping pair an event is about. -/
def eventPair (e : DBEvent) : String × String :=
  match e with
  | DBEvent.execUp m => (m.repository, m.ID)
  | DBEvent.execDown m => (m.repository, m.ID)
  | DBEvent.insertLog repo mid => (repo, mid)

/-- Spec predicate: a migration-service call only ever executes or records
migrations whose bookkeeping pair is absent from the snapshot it was given
(the already-applied ones are skipped). -/
def touchesOnlyUnapplied (logs : List MigrationLog) (o : MigrateOutcome) : Bool :=
  (o.events.all fun e => !(appliedContains logs (eventPair e).1 (eventPair e).2)) &&
  (o.inserted.all fun r => !(appliedContains logs r.Repository r.MigrationID))

/-- A store on which every SQL execution and every insert succeeds. -/
def stAllOk : Store :=
  ⟨fun _ => true, fun _ _ => true⟩

/-- A store on which only the SQL text U1 succeeds: the Up of a second
migration fails and so does every Down, exercising the revert path. -/
def stOnlyU1 : Store :=
  ⟨fun q => q == "U1", fun _ _ => true⟩

/-- A store on which every SQL execution succeeds but every bookkeeping
insert fails. -/
def stSaveFails : Store :=
  ⟨fun _ => true, fun _ _ => false⟩

/-- A registry holding one registered, not yet started service named svc. -/
def healthOneSvc : Health :=
  ⟨0, [("svc", ⟨ServiceStatus.notStarted, none, none, "", none⟩)]⟩

/-- A small virtual file tree: two migration files listed out of order, a
subdirectory, and a non-sql file. -/
def fsysDemo : List FSFile :=
  [⟨"002_b.sql", false, "-- +migrate Up\nB"⟩,
   ⟨"001_a.sql", false, "-- +migrate Up\nA"⟩,
   ⟨"sub", true, ""⟩,
   ⟨"r.txt", false, "x"⟩]

end Platforma

namespace Platforma

/-! ## Lemmas about the migration service -/

theorem revert_events (st : Store) (l : List Migration) :
    (revertMigrations st l).1 = l.reverse.map DBEvent.execDown := by
  induction l with
  | nil => rfl
  | cons m rest ih => simp [revertMigrations, ih]

theorem save_events (st : Store) (l : List Migration) :
    (saveMigrationLogs st l).1 = l.map fun m => DBEvent.insertLog m.repository m.ID := by
  induction l with
  | nil => rfl
  | cons m rest ih => simp [saveMigrationLogs, ih]

theorem save_rows (st : Store) (l : List Migration) :
    (saveMigrationLogs st l).2.1 =
      (l.filter fun m => st.saveOk m.repository m.ID).map
        fun m => MigrationLog.mk m.repository m.ID := by
  induction l with
  | nil => rfl
  | cons m rest ih =>
      by_cases h : st.saveOk m.repository m.ID = true
      · simp [saveMigrationLogs, List.filter_cons, h, ih]
      · simp only [Bool.not_eq_true] at h
        simp [saveMigrationLogs, List.filter_cons, h, ih]

theorem applyLoop_fail (st : Store) (logs : List MigrationLog) (m : Migration)
    (post : List Migration)
    (hm : appliedContains logs m.repository m.ID = false)
    (hup : st.execOk m.Up = false) :
    ∀ (pre a0 : List Migration),
      (∀ x ∈ pre, appliedContains logs x.repository x.ID = false → st.execOk x.Up = true) →
      applyMigrationsLoop st logs a0 (pre ++ m :: post) =
        ((pre.filter (unappliedIn logs)).map DBEvent.execUp ++
           DBEvent.execUp m ::
             ((a0 ++ pre.filter (unappliedIn logs)).reverse.map DBEvent.execDown),
         a0 ++ pre.filter (unappliedIn logs),
         some m) := by
  intro pre
  induction pre with
  | nil =>
      intro a0 _
      simp [applyMigrationsLoop, hm, hup, revert_events]
  | cons p pre ih =>
      intro a0 hpre
      cases hp : appliedContains logs p.repository p.ID with
      | true =>
          have : (p :: pre) ++ m :: post = p :: (pre ++ m :: post) := rfl
          rw [this]
          simp only [applyMigrationsLoop, hp, if_true]
          rw [ih a0 (fun x hx => hpre x (List.mem_cons_of_mem p hx))]
          simp [List.filter_cons, unappliedIn, hp]
      | false =>
          have hupp : st.execOk p.Up = true := hpre p (List.mem_cons_self p pre) hp
          have : (p :: pre) ++ m :: post = p :: (pre ++ m :: post) := rfl
          rw [this]
          simp only [applyMigrationsLoop, hp, hupp]
          rw [ih (a0 ++ [p]) (fun x hx => hpre x (List.mem_cons_of_mem p hx))]
          simp [List.filter_cons, unappliedIn, hp, List.append_assoc]

theorem applyLoop_success (st : Store) (logs : List MigrationLog) :
    ∀ (ms a0 : List Migration),
      (∀ x ∈ ms, appliedContains logs x.repository x.ID = false → st.execOk x.Up = true) →
      applyMigrationsLoop st logs a0 ms =
        ((ms.filter (unappliedIn logs)).map DBEvent.execUp,
         a0 ++ ms.filter (unappliedIn logs), none) := by
  intro ms
  induction ms with
  | nil => intro a0 _; simp [applyMigrationsLoop]
  | cons p rest ih =>
      intro a0 hok
      cases hp : appliedContains logs p.repository p.ID with
      | true =>
          simp only [applyMigrationsLoop, hp, if_true]
          rw [ih a0 (fun x hx => hok x (List.mem_cons_of_mem p hx))]
          simp [List.filter_cons, unappliedIn, hp]
      | false =>
          have hupp : st.execOk p.Up = true := hok p (List.mem_cons_self p rest) hp
          simp only [applyMigrationsLoop, hp, hupp]
          rw [ih (a0 ++ [p]) (fun x hx => hok x (List.mem_cons_of_mem p hx))]
          simp [List.filter_cons, unappliedIn, hp, List.append_assoc]

theorem applyLoop_none (st : Store) (logs : List MigrationLog) :
    ∀ (ms a0 : List Migration) (evs : List DBEvent) (app : List Migration),
      applyMigrationsLoop st logs a0 ms = (evs, app, none) →
      app = a0 ++ ms.filter (unappliedIn logs) := by
  intro ms
  induction ms with
  | nil =>
      intro a0 evs app h
      have := congrArg (fun t => t.2.1) h
      simp only [applyMigrationsLoop] at this ⊢
      simp [← this]
  | cons p rest ih =>
      intro a0 evs app h
      cases hp : appliedContains logs p.repository p.ID with
      | true =>
          simp only [applyMigrationsLoop, hp, if_true] at h
          rw [ih a0 evs app h]
          simp [List.filter_cons, unappliedIn, hp]
      | false =>
          cases hu : st.execOk p.Up with
          | true =>
              simp only [applyMigrationsLoop, hp, hu] at h
              have h2 : (applyMigrationsLoop st logs (a0 ++ [p]) rest).2 = (app, none) := by
                have := congrArg (fun t => t.2) h
                simpa using this
              have hfull : applyMigrationsLoop st logs (a0 ++ [p]) rest =
                  ((applyMigrationsLoop st logs (a0 ++ [p]) rest).1, app, none) := by
                rw [← h2]
              rw [ih (a0 ++ [p]) _ app hfull]
              simp [List.filter_cons, unappliedIn, hp, List.append_assoc]
          | false =>
              simp only [applyMigrationsLoop, hp, hu] at h
              have := congrArg (fun t => t.2.2) h
              simp at this

theorem applyLoop_unapplied (st : Store) (logs : List MigrationLog) :
    ∀ (ms a0 : List Migration),
      (∀ x ∈ a0, appliedContains logs x.repository x.ID = false) →
      (∀ e ∈ (applyMigrationsLoop st logs a0 ms).1,
        appliedContains logs (eventPair e).1 (eventPair e).2 = false) ∧
      (∀ x ∈ (applyMigrationsLoop st logs a0 ms).2.1,
        appliedContains logs x.repository x.ID = false) := by
  intro ms
  induction ms with
  | nil =>
      intro a0 ha0
      constructor
      · intro e he; simp [applyMigrationsLoop] at he
      · intro x hx; simp only [applyMigrationsLoop] at hx; exact ha0 x hx
  | cons p rest ih =>
      intro a0 ha0
      cases hp : appliedContains logs p.repository p.ID with
      | true =>
          simpa only [applyMigrationsLoop, hp, if_true] using ih a0 ha0
      | false =>
          cases hu : st.execOk p.Up with
          | true =>
              have ha0p : ∀ x ∈ a0 ++ [p], appliedContains logs x.repository x.ID = false := by
                intro x hx
                rcases List.mem_append.mp hx with hx | hx
                · exact ha0 x hx
                · simp at hx; subst hx; exact hp
              have ihp := ih (a0 ++ [p]) ha0p
              constructor
              · intro e he
                simp only [applyMigrationsLoop, hp, hu] at he
                simp only [Bool.false_eq_true, if_false, if_true, List.mem_cons] at he
                rcases he with he | he
                · subst he; simpa [eventPair] using hp
                · exact ihp.1 e he
              · intro x hx
                simp only [applyMigrationsLoop, hp, hu] at hx
                exact ihp.2 x hx
          | false =>
              constructor
              · intro e he
                simp only [applyMigrationsLoop, hp, hu] at he
                simp only [Bool.false_eq_true, if_false, List.mem_cons, revert_events] at he
                rcases he with he | he
                · subst he; simpa [eventPair] using hp
                · rcases List.mem_map.mp he with ⟨x, hx, hex⟩
                  subst hex
                  have hxa : x ∈ a0 := List.mem_reverse.mp hx
                  simpa [eventPair] using ha0 x hxa
              · intro x hx
                simp only [applyMigrationsLoop, hp, hu] at hx
                exact ha0 x hx

/-! ## Claim theorems for the migration service -/

/-- C1. If, during a single Migrate call, the Up SQL of some migration
fails (the first failing one being m, preceded by pre whose unapplied
members all succeeded), then the trace after the failing Up is exactly one
Down execution per migration applied earlier in this call, in strict
reverse order of application, regardless of whether individual reverts
fail; no bookkeeping row is inserted for any member of the batch; and the
call returns the original Up failure, revert errors being surfaced only
through the log. -/
theorem applyMigrations_up_failure_reverts (st : Store) (logs : List MigrationLog)
    (pre post : List Migration) (m : Migration)
    (hm : appliedContains logs m.repository m.ID = false)
    (hup : st.execOk m.Up = false)
    (hpre : ∀ x ∈ pre, appliedContains logs x.repository x.ID = false → st.execOk x.Up = true) :
    applyMigrations st (pre ++ m :: post) logs =
      ⟨(pre.filter (unappliedIn logs)).map DBEvent.execUp ++
         DBEvent.execUp m ::
           ((pre.filter (unappliedIn logs)).reverse.map DBEvent.execDown),
       [], some m⟩ := by
  have hl := applyLoop_fail st logs m post hm hup pre [] hpre
  simp only [List.nil_append] at hl
  simp [applyMigrations, hl]

/-- Witness for C1: a two-migration batch over an empty log where the
second Up fails and the only Down also fails; the Down of the first
migration is still attempted exactly once, nothing is inserted, and the
original Up failure is returned. -/
theorem applyMigrations_up_failure_reverts_witness :
    applyMigrations stOnlyU1
        [⟨"1", "U1", "D1", "r"⟩, ⟨"2", "U2", "D2", "r"⟩] [] =
      ⟨[DBEvent.execUp ⟨"1", "U1", "D1", "r"⟩, DBEvent.execUp ⟨"2", "U2", "D2", "r"⟩,
        DBEvent.execDown ⟨"1", "U1", "D1", "r"⟩],
       [], some ⟨"2", "U2", "D2", "r"⟩⟩ := by
  have h := applyMigrations_up_failure_reverts stOnlyU1 []
    [⟨"1", "U1", "D1", "r"⟩] [] ⟨"2", "U2", "D2", "r"⟩
    (by decide) (by decide) (by decide)
  exact h.trans (by decide)

/-- C6. If every Up SQL of the batch members not yet recorded succeeds,
the Migrate call returns a nil error, no matter how many bookkeeping
inserts fail afterwards: the store save behavior is unconstrained here,
and insert failures are observable only through the log. -/
theorem applyMigrations_insert_failure_still_nil (st : Store)
    (logs : List MigrationLog) (batch : List Migration)
    (hups : ∀ x ∈ batch, appliedContains logs x.repository x.ID = false →
      st.execOk x.Up = true) :
    (applyMigrations st batch logs).failed = none := by
  have hl := applyLoop_success st logs batch [] hups
  simp only [List.nil_append] at hl
  simp [applyMigrations, hl]

/-- Witness for C6: on a store where every insert fails, a one-migration
batch still migrates with a nil error, and indeed no row is persisted. -/
theorem applyMigrations_insert_failure_still_nil_witness :
    (applyMigrations stSaveFails [⟨"1", "U", "D", "r"⟩] []).failed = none ∧
      (applyMigrations stSaveFails [⟨"1", "U", "D", "r"⟩] []).inserted = [] := by
  refine ⟨applyMigrations_insert_failure_still_nil stSaveFails [] _ (by decide), by decide⟩

/-- C2. After a Migrate call that returns success, and provided the
bookkeeping inserts themselves succeed (insert failures are the separate
logged-only path of C6), the persisted log set is the union of the initial
log set with the bookkeeping pairs of the batch. -/
theorem applyMigrations_success_union (st : Store) (logs : List MigrationLog)
    (batch : List Migration)
    (hok : (applyMigrations st batch logs).failed = none)
    (hsave : ∀ x ∈ batch, st.saveOk x.repository x.ID = true) :
    ∀ repo mid,
      (MigrationLog.mk repo mid ∈ logs ++ (applyMigrations st batch logs).inserted) ↔
        (MigrationLog.mk repo mid ∈ logs ∨
          ∃ x ∈ batch, x.repository = repo ∧ x.ID = mid) := by
  intro repo mid
  rcases hr : applyMigrationsLoop st logs [] batch with ⟨evs, app, res⟩
  cases res with
  | some mm =>
      exfalso
      simp [applyMigrations, hr] at hok
  | none =>
      have happ : app = batch.filter (unappliedIn logs) := by
        simpa using applyLoop_none st logs batch [] evs app hr
      have happ_sub : ∀ x ∈ app, x ∈ batch := by
        intro x hx; rw [happ] at hx; exact (List.mem_filter.mp hx).1
      have hins : (applyMigrations st batch logs).inserted =
          app.map fun m => MigrationLog.mk m.repository m.ID := by
        have hfil : app.filter (fun m => st.saveOk m.repository m.ID) = app :=
          List.filter_eq_self.mpr fun x hx => hsave x (happ_sub x hx)
        simp [applyMigrations, hr, save_rows, hfil]
      rw [hins, List.mem_append]
      constructor
      · rintro (h | h)
        · exact Or.inl h
        · rcases List.mem_map.mp h with ⟨x, hx, hxe⟩
          obtain ⟨h1, h2⟩ := MigrationLog.mk.inj hxe
          exact Or.inr ⟨x, happ_sub x hx, h1, h2⟩
      · rintro (h | h)
        · exact Or.inl h
        · rcases h with ⟨x, hxb, h1, h2⟩
          cases hx : unappliedIn logs x with
          | true =>
              refine Or.inr (List.mem_map.mpr ⟨x, ?_, by rw [h1, h2]⟩)
              rw [happ]
              exact List.mem_filter.mpr ⟨hxb, hx⟩
          | false =>
              have hcon : appliedContains logs x.repository x.ID = true := by
                simpa [unappliedIn] using hx
              rcases List.any_eq_true.mp hcon with ⟨l, hl, hlq⟩
              simp only [Bool.and_eq_true, beq_iff_eq] at hlq
              have hl1 : l.Repository = x.repository := hlq.1
              have hl2 : l.MigrationID = x.ID := hlq.2
              left
              have : l = MigrationLog.mk repo mid := by
                cases l
                simp_all
              rwa [this] at hl

/-- Witness for C2: a batch of one migration over a one-row log; its pair
is a member of the table after the call. -/
theorem applyMigrations_success_union_witness :
    MigrationLog.mk "r" "1" ∈
      [MigrationLog.mk "a" "0"] ++
        (applyMigrations stAllOk [⟨"1", "U", "D", "r"⟩] [MigrationLog.mk "a" "0"]).inserted := by
  exact (applyMigrations_success_union stAllOk [MigrationLog.mk "a" "0"]
    [⟨"1", "U", "D", "r"⟩] (by decide) (by decide) "r" "1").mpr (by decide)

/-- C9. The already-applied check consults only the snapshot passed in at
the start of the call: a batch holding two migrations with the same
bookkeeping pair absent from the snapshot executes both Up statements and
writes two bookkeeping rows. -/
theorem applyMigrations_duplicate_pair_applied_twice (st : Store)
    (logs : List MigrationLog) (r i u1 d1 u2 d2 : String)
    (hnew : appliedContains logs r i = false)
    (hu1 : st.execOk u1 = true) (hu2 : st.execOk u2 = true)
    (hs : st.saveOk r i = true) :
    applyMigrations st [⟨i, u1, d1, r⟩, ⟨i, u2, d2, r⟩] logs =
      ⟨[DBEvent.execUp ⟨i, u1, d1, r⟩, DBEvent.execUp ⟨i, u2, d2, r⟩,
        DBEvent.insertLog r i, DBEvent.insertLog r i],
       [MigrationLog.mk r i, MigrationLog.mk r i], none⟩ := by
  simp [applyMigrations, applyMigrationsLoop, saveMigrationLogs, hnew, hu1, hu2, hs]

/-- Witness for C9: two concrete migrations with the same pair over an
empty snapshot; both run and both rows are written. -/
theorem applyMigrations_duplicate_pair_applied_twice_witness :
    applyMigrations stAllOk [⟨"1", "Ua", "Da", "r"⟩, ⟨"1", "Ub", "Db", "r"⟩] [] =
      ⟨[DBEvent.execUp ⟨"1", "Ua", "Da", "r"⟩, DBEvent.execUp ⟨"1", "Ub", "Db", "r"⟩,
        DBEvent.insertLog "r" "1", DBEvent.insertLog "r" "1"],
       [MigrationLog.mk "r" "1", MigrationLog.mk "r" "1"], none⟩ :=
  applyMigrations_duplicate_pair_applied_twice stAllOk [] "r" "1" "Ua" "Da" "Ub" "Db"
    (by decide) (by decide) (by decide) (by decide)

/-- C5. A migration whose bookkeeping pair is already in the snapshot is
skipped: every event and every inserted row of a Migrate call concerns a
pair absent from the snapshot.  Consequently Migrate is idempotent:
running the full Migrate twice from the same sources on a fresh database
leaves exactly one bootstrap row, one `(platforma_migration, init)` pair. -/
theorem applyMigrations_skip_applied_and_idempotent :
    (∀ (st : Store) (batch : List Migration) (logs : List MigrationLog),
      touchesOnlyUnapplied logs (applyMigrations st batch logs) = true) ∧
    (DatabaseMigrate stAllOk bootstrapMigrations [] []).table =
      [MigrationLog.mk "platforma_migration" "init"] ∧
    (DatabaseMigrate stAllOk bootstrapMigrations []
        (DatabaseMigrate stAllOk bootstrapMigrations [] []).table).table =
      [MigrationLog.mk "platforma_migration" "init"] ∧
    ((DatabaseMigrate stAllOk bootstrapMigrations []
        (DatabaseMigrate stAllOk bootstrapMigrations [] []).table).table.count
      (MigrationLog.mk "platforma_migration" "init")) = 1 := by
  refine ⟨?_, by decide, by decide, by decide⟩
  intro st batch logs
  rcases hr : applyMigrationsLoop st logs [] batch with ⟨evs, app, res⟩
  have hinv := applyLoop_unapplied st logs batch [] (by simp)
  rw [hr] at hinv
  have happ : ∀ x ∈ app, appliedContains logs x.repository x.ID = false := hinv.2
  cases res with
  | some mm =>
      simp only [applyMigrations, hr, touchesOnlyUnapplied, Bool.and_eq_true]
      refine ⟨?_, by simp⟩
      refine List.all_eq_true.mpr ?_
      intro e he
      simpa using hinv.1 e he
  | none =>
      simp only [applyMigrations, hr, touchesOnlyUnapplied, Bool.and_eq_true]
      refine ⟨?_, ?_⟩
      · refine List.all_eq_true.mpr ?_
        intro e he
        simp only [List.mem_append, save_events] at he
        rcases he with he | he
        · simpa using hinv.1 e he
        · rcases List.mem_map.mp he with ⟨x, hx, hex⟩
          subst hex
          simpa [eventPair] using happ x hx
      · refine List.all_eq_true.mpr ?_
        intro rrow hrow
        simp only [save_rows] at hrow
        rcases List.mem_map.mp hrow with ⟨x, hx, hex⟩
        subst hex
        simpa using happ x (List.mem_filter.mp hx).1

/-! ## Lemmas about the health registry -/

theorem find_map_update (l : List (String × ServiceHealth)) (name : String)
    (f : ServiceHealth → ServiceHealth) :
    ((l.map fun p => if p.1 == name then (p.1, f p.2) else p).find?
        fun p => p.1 == name) =
      (l.find? fun p => p.1 == name).map fun p => (p.1, f p.2) := by
  induction l with
  | nil => rfl
  | cons q l ih =>
      rw [List.map_cons]
      by_cases hq : (q.1 == name) = true
      · rw [if_pos hq]
        simp [hq]
      · have e1 : List.find? (fun p : String × ServiceHealth => p.1 == name)
            (q :: (l.map fun p => if p.1 == name then (p.1, f p.2) else p)) =
              List.find? (fun p : String × ServiceHealth => p.1 == name)
                (l.map fun p => if p.1 == name then (p.1, f p.2) else p) :=
          List.find?_cons_of_neg _ hq
        have e2 : List.find? (fun p : String × ServiceHealth => p.1 == name) (q :: l) =
            List.find? (fun p : String × ServiceHealth => p.1 == name) l :=
          List.find?_cons_of_neg _ hq
        rw [if_neg hq, e1, e2]
        exact ih

theorem find_map_update_ne (l : List (String × ServiceHealth)) (k name : String)
    (f : ServiceHealth → ServiceHealth) (hk : k ≠ name) :
    ((l.map fun p => if p.1 == k then (p.1, f p.2) else p).find?
        fun p => p.1 == name) =
      l.find? fun p => p.1 == name := by
  induction l with
  | nil => rfl
  | cons q l ih =>
      rw [List.map_cons]
      by_cases hq : (q.1 == k) = true
      · have hqk : q.1 = k := by simpa using hq
        have hqn : ¬((q.1 == name) = true) := by simpa [hqk] using hk
        have e1 : List.find? (fun p : String × ServiceHealth => p.1 == name)
            ((q.1, f q.2) :: (l.map fun p => if p.1 == k then (p.1, f p.2) else p)) =
              List.find? (fun p : String × ServiceHealth => p.1 == name)
                (l.map fun p => if p.1 == k then (p.1, f p.2) else p) :=
          List.find?_cons_of_neg _ hqn
        have e2 : List.find? (fun p : String × ServiceHealth => p.1 == name) (q :: l) =
            List.find? (fun p : String × ServiceHealth => p.1 == name) l :=
          List.find?_cons_of_neg _ hqn
        rw [if_pos hq, e1, e2]
        exact ih
      · rw [if_neg hq]
        by_cases hqn : (q.1 == name) = true
        · simp [hqn]
        · have e1 : List.find? (fun p : String × ServiceHealth => p.1 == name)
              (q :: (l.map fun p => if p.1 == k then (p.1, f p.2) else p)) =
                List.find? (fun p : String × ServiceHealth => p.1 == name)
                  (l.map fun p => if p.1 == k then (p.1, f p.2) else p) :=
            List.find?_cons_of_neg _ hqn
          have e2 : List.find? (fun p : String × ServiceHealth => p.1 == name) (q :: l) =
              List.find? (fun p : String × ServiceHealth => p.1 == name) l :=
            List.find?_cons_of_neg _ hqn
          rw [e1, e2]
          exact ih

theorem map_fst_update (l : List (String × ServiceHealth)) (name : String)
    (f : ServiceHealth → ServiceHealth) :
    (l.map fun p => if p.1 == name then (p.1, f p.2) else p).map Prod.fst =
      l.map Prod.fst := by
  induction l with
  | nil => rfl
  | cons q l ih =>
      cases hq : q.1 == name with
      | true => simp only [List.map_cons, hq, if_true, ih]
      | false => simp only [List.map_cons, hq, Bool.false_eq_true, if_false, ih]

theorem update_keys (h : Health) (name : String) (f : ServiceHealth → ServiceHealth) :
    (h.updateService name f).serviceNames = h.serviceNames := by
  simp only [Health.updateService, Health.serviceNames]
  exact map_fst_update h.Services name f

theorem lookup_update_self (h : Health) (name : String)
    (f : ServiceHealth → ServiceHealth) (sv : ServiceHealth)
    (hs : h.lookupService name = some sv) :
    (h.updateService name f).lookupService name = some (f sv) := by
  rcases hf : h.Services.find? fun p => p.1 == name with _ | p
  · simp [Health.lookupService, hf] at hs
  · have hsv : p.2 = sv := by
      simp [Health.lookupService, hf] at hs
      exact hs
    simp only [Health.lookupService, Health.updateService]
    rw [find_map_update, hf]
    simp [hsv]

theorem lookup_update_ne (h : Health) (k name : String)
    (f : ServiceHealth → ServiceHealth) (hk : k ≠ name) :
    (h.updateService k f).lookupService name = h.lookupService name := by
  simp only [Health.lookupService, Health.updateService]
  rw [find_map_update_ne _ _ _ _ hk]

theorem lookup_start_self (h : Health) (name : String) (t : Nat) (sv : ServiceHealth)
    (hs : h.lookupService name = some sv) :
    (h.StartService name t).lookupService name =
      some { sv with Status := ServiceStatus.started, StartedAt := some t } := by
  simp only [Health.StartService, hs]
  exact lookup_update_self h name _ sv hs

theorem lookup_fail_self (h : Health) (name : String) (e : String) (t : Nat)
    (sv : ServiceHealth) (hs : h.lookupService name = some sv) :
    (h.FailService name e t).lookupService name =
      some { sv with Status := ServiceStatus.error, StoppedAt := some t, Error := e } := by
  simp only [Health.FailService, hs]
  exact lookup_update_self h name _ sv hs

theorem lookup_start_ne (h : Health) (k name : String) (t : Nat) (hk : k ≠ name) :
    (h.StartService k t).lookupService name = h.lookupService name := by
  rcases hf : h.lookupService k with _ | sv
  · simp [Health.StartService, hf]
  · simp only [Health.StartService, hf]
    exact lookup_update_ne h k name _ hk

theorem lookup_fail_ne (h : Health) (k name : String) (e : String) (t : Nat)
    (hk : k ≠ name) :
    (h.FailService k e t).lookupService name = h.lookupService name := by
  rcases hf : h.lookupService k with _ | sv
  · simp [Health.FailService, hf]
  · simp only [Health.FailService, hf]
    exact lookup_update_ne h k name _ hk

theorem lookup_step_ne (h : Health) (s : ServiceSpec) (t : Nat) (name : String)
    (hk : s.name ≠ name) :
    (runServiceStep h s t).lookupService name = h.lookupService name := by
  cases s with
  | mk sn so =>
      cases so with
      | ok => simpa [runServiceStep] using lookup_start_ne h sn name t hk
      | fail e =>
          simp only [runServiceStep]
          rw [lookup_fail_ne _ _ _ _ _ hk, lookup_start_ne h sn name t hk]
      | panicked p => simpa [runServiceStep] using lookup_start_ne h sn name t hk

theorem lookup_runServices_notin (t : Nat) (name : String) :
    ∀ (ss : List ServiceSpec) (h : Health), name ∉ ss.map ServiceSpec.name →
      (runServices h t ss).lookupService name = h.lookupService name := by
  intro ss
  induction ss with
  | nil => intro h _; rfl
  | cons s rest ih =>
      intro h hnotin
      simp only [List.map_cons, List.mem_cons] at hnotin
      push_neg at hnotin
      simp only [runServices]
      rw [ih _ hnotin.2, lookup_step_ne _ _ _ _ (fun he => hnotin.1 he.symm)]

theorem step_own_status (h : Health) (name : String) (outcome : RunOutcome) (t : Nat)
    (sv : ServiceHealth) (hs : h.lookupService name = some sv) :
    ((runServiceStep h ⟨name, outcome⟩ t).lookupService name).map ServiceHealth.Status =
      some (match outcome with
            | RunOutcome.fail _ => ServiceStatus.error
            | _ => ServiceStatus.started) := by
  cases outcome with
  | ok => simp [runServiceStep, lookup_start_self h name t sv hs]
  | panicked p => simp [runServiceStep, lookup_start_self h name t sv hs]
  | fail e =>
      have h1 := lookup_start_self h name t sv hs
      simp only [runServiceStep]
      rw [lookup_fail_self _ _ _ _ _ h1]
      rfl

/-! ## Claim theorems for the health registry and supervisor -/

/-- C10. The three mutation operations of the health registry are no-ops
on a name that has no entry, and none of them ever changes the key set of
the registry: that set is modified only by service registration. -/
theorem health_ops_unknown_name_noop (h : Health) (name : String) (t : Nat)
    (e d : String) :
    (h.lookupService name = none →
      h.StartService name t = h ∧ h.FailService name e t = h ∧
        h.SetServiceData name d = h) ∧
    (h.StartService name t).serviceNames = h.serviceNames ∧
    (h.FailService name e t).serviceNames = h.serviceNames ∧
    (h.SetServiceData name d).serviceNames = h.serviceNames := by
  refine ⟨fun hnone => ⟨?_, ?_, ?_⟩, ?_, ?_, ?_⟩
  · simp [Health.StartService, hnone]
  · simp [Health.FailService, hnone]
  · simp [Health.SetServiceData, hnone]
  · rcases hf : h.lookupService name with _ | sv
    · simp [Health.StartService, hf]
    · simp only [Health.StartService, hf]
      exact update_keys ..
  · rcases hf : h.lookupService name with _ | sv
    · simp [Health.FailService, hf]
    · simp only [Health.FailService, hf]
      exact update_keys ..
  · rcases hf : h.lookupService name with _ | sv
    · simp [Health.SetServiceData, hf]
    · simp only [Health.SetServiceData, hf]
      exact update_keys ..

/-- Witness for C10: on a registry holding only svc, each of the three
operations applied to an unregistered name leaves the registry equal to
what it was. -/
theorem health_ops_unknown_name_noop_witness :
    healthOneSvc.StartService "missing" 3 = healthOneSvc ∧
      healthOneSvc.FailService "missing" "e" 3 = healthOneSvc ∧
        healthOneSvc.SetServiceData "missing" "d" = healthOneSvc :=
  (health_ops_unknown_name_noop healthOneSvc "missing" 3 "e" "d").1 (by decide)

/-- C4 counterexample: a registered service whose runner panics ends the
supervised run with status STARTED, not ERROR — the deferred recover in
`Application.run` only logs the panic and never calls FailService, so the
claimed equivalence (ERROR iff error or panic) fails on the panic side. -/
theorem run_panicked_service_stays_started :
    ((runServices healthOneSvc 5 [⟨"svc", RunOutcome.panicked "boom"⟩]).lookupService
          "svc").map ServiceHealth.Status = some ServiceStatus.started ∧
    ¬(((runServices healthOneSvc 5 [⟨"svc", RunOutcome.panicked "boom"⟩]).lookupService
          "svc").map ServiceHealth.Status = some ServiceStatus.error) := by
  decide

/-- C4 (amended). Every registered service reaches status STARTED at some
moment of the supervised run, and after the run its status is ERROR if and
only if its runner returned a non-nil error; a runner that exits cleanly
or panics leaves the status STARTED, the panic being only logged. -/
theorem run_service_health_lifecycle (t : Nat) (name : String) (outcome : RunOutcome) :
    ∀ (ss : List ServiceSpec) (h0 : Health),
      (ss.map ServiceSpec.name).Nodup →
      ServiceSpec.mk name outcome ∈ ss →
      h0.lookupService name ≠ none →
      (∃ hs ∈ runServicesStates h0 t ss,
        ((hs.lookupService name).map ServiceHealth.Status) = some ServiceStatus.started) ∧
      ((runServices h0 t ss).lookupService name).map ServiceHealth.Status =
        some (match outcome with
              | RunOutcome.fail _ => ServiceStatus.error
              | _ => ServiceStatus.started) := by
  intro ss
  induction ss with
  | nil => intro h0 _ hmem _; cases hmem
  | cons s rest ih =>
      intro h0 hnodup hmem hreg
      rw [List.map_cons, List.nodup_cons] at hnodup
      rcases List.mem_cons.mp hmem with heq | hmem2
      · subst heq
        rcases hlk : h0.lookupService name with _ | sv
        · exact absurd hlk hreg
        · constructor
          · refine ⟨h0.StartService name t, ?_, ?_⟩
            · simp only [runServicesStates]
              exact List.mem_cons_self _ _
            · rw [lookup_start_self h0 name t sv hlk]
              rfl
          · simp only [runServices]
            rw [lookup_runServices_notin t name rest _ hnodup.1]
            exact step_own_status h0 name outcome t sv hlk
      · have hname_mem : name ∈ rest.map ServiceSpec.name :=
          List.mem_map.mpr ⟨ServiceSpec.mk name outcome, hmem2, rfl⟩
        have hsn : s.name ≠ name := fun he => hnodup.1 (he ▸ hname_mem)
        have hreg2 : (runServiceStep h0 s t).lookupService name ≠ none := by
          rw [lookup_step_ne h0 s t name hsn]
          exact hreg
        have IH := ih (runServiceStep h0 s t) hnodup.2 hmem2 hreg2
        constructor
        · rcases IH.1 with ⟨hs, hsmem, hstat⟩
          refine ⟨hs, ?_, hstat⟩
          simp only [runServicesStates]
          exact List.mem_cons_of_mem _ (List.mem_cons_of_mem _ hsmem)
        · simp only [runServices]
          exact IH.2

/-- Witness for the amended C4: a one-service registry whose runner fails;
the service passes through STARTED and ends with status ERROR. -/
theorem run_service_health_lifecycle_witness :
    (∃ hs ∈ runServicesStates healthOneSvc 7 [⟨"svc", RunOutcome.fail "boom"⟩],
      ((hs.lookupService "svc").map ServiceHealth.Status) = some ServiceStatus.started) ∧
    ((runServices healthOneSvc 7 [⟨"svc", RunOutcome.fail "boom"⟩]).lookupService
        "svc").map ServiceHealth.Status = some ServiceStatus.error :=
  run_service_health_lifecycle 7 "svc" (RunOutcome.fail "boom")
    [⟨"svc", RunOutcome.fail "boom"⟩] healthOneSvc (by decide) (by decide) (by decide)

/-! ## Lemmas about the lexicographic filename order -/

theorem charToNat_inj {a b : Char} (h : a.toNat = b.toNat) : a = b :=
  Char.ext (UInt32.toNat.inj h)

theorem lexLeChars_total : ∀ (as bs : List Char),
    lexLeChars as bs = true ∨ lexLeChars bs as = true := by
  intro as
  induction as with
  | nil => intro bs; left; rfl
  | cons a as ih =>
      intro bs
      cases bs with
      | nil => right; rfl
      | cons b bs =>
          by_cases hab : (a == b) = true
          · have hba : (b == a) = true := by
              have : a = b := by simpa using hab
              simp [this]
            rcases ih bs with h | h
            · left; simpa [lexLeChars, hab] using h
            · right; simpa [lexLeChars, hba] using h
          · have hne : a ≠ b := by simpa using hab
            have hba : ¬((b == a) = true) := by
              simp only [beq_iff_eq]
              exact fun he => hne he.symm
            have hnat : a.toNat ≠ b.toNat := fun he => hne (charToNat_inj he)
            rcases Nat.lt_or_ge a.toNat b.toNat with hlt | hge
            · left; simp [lexLeChars, hab, hlt]
            · have hlt : b.toNat < a.toNat :=
                Nat.lt_of_le_of_ne hge fun he => hnat he.symm
              right; simp [lexLeChars, hba, hlt]

theorem lexLeChars_trans : ∀ (as bs cs : List Char),
    lexLeChars as bs = true → lexLeChars bs cs = true → lexLeChars as cs = true := by
  intro as
  induction as with
  | nil => intro bs cs _ _; rfl
  | cons a as ih =>
      intro bs cs h1 h2
      cases bs with
      | nil => simp [lexLeChars] at h1
      | cons b bs =>
          cases cs with
          | nil => simp [lexLeChars] at h2
          | cons c cs =>
              by_cases hab : (a == b) = true
              · have haeb : a = b := by simpa using hab
                subst haeb
                rw [lexLeChars, if_pos hab] at h1
                by_cases hbc : (a == c) = true
                · have : a = c := by simpa using hbc
                  subst this
                  rw [lexLeChars, if_pos hbc] at h2
                  rw [lexLeChars, if_pos hbc]
                  exact ih bs cs h1 h2
                · rw [lexLeChars, if_neg hbc] at h2
                  rw [lexLeChars, if_neg hbc]
                  exact h2
              · have hne : a ≠ b := by simpa using hab
                rw [lexLeChars, if_neg hab] at h1
                have h1n : a.toNat < b.toNat := by simpa using h1
                by_cases hbc : (b == c) = true
                · have : b = c := by simpa using hbc
                  subst this
                  rw [lexLeChars, if_neg hab]
                  simpa using h1n
                · rw [lexLeChars, if_neg hbc] at h2
                  have h2n : b.toNat < c.toNat := by simpa using h2
                  have hac : a.toNat < c.toNat := Nat.lt_trans h1n h2n
                  have hacne : ¬((a == c) = true) := by
                    simp only [beq_iff_eq]
                    intro he
                    subst he
                    exact Nat.lt_irrefl _ (Nat.lt_trans h1n h2n)
                  rw [lexLeChars, if_neg hacne]
                  simpa using hac

instance : IsTotal String fun a b => lexLe a b = true :=
  ⟨fun a b => lexLeChars_total a.data b.data⟩

instance : IsTrans String fun a b => lexLe a b = true :=
  ⟨fun a b c => lexLeChars_trans a.data b.data c.data⟩

/-! ## Lemmas about the parser -/

theorem parseAll_ok (fsys : List FSFile) : ∀ (ns : List String) (ms : List Migration),
    parseAll fsys ns = Except.ok ms →
    List.Forall₂ (fun n m => parseMigrationFile fsys n = Except.ok m) ns ms := by
  intro ns
  induction ns with
  | nil =>
      intro ms h
      simp only [parseAll] at h
      cases h
      exact List.Forall₂.nil
  | cons n rest ih =>
      intro ms h
      simp only [parseAll, bind, Except.bind] at h
      cases hp : parseMigrationFile fsys n with
      | error e => rw [hp] at h; cases h
      | ok m =>
          rw [hp] at h
          cases hr : parseAll fsys rest with
          | error e => rw [hr] at h; cases h
          | ok ms2 =>
              rw [hr] at h
              cases h
              exact List.Forall₂.cons hp (ih ms2 hr)

/-! ## Claim theorems for the parser and the scheduler -/

/-- C3 divergence, evaluated on the embedded code: the parser of
`database/migration_fs.go` rejects an ID marker that appears after the Up
marker with the marker-not-first error, and rejects a second ID marker
with the duplicate-marker error, while the tests of the repository (and
the claim) expect both files to parse with the first id winning. -/
theorem parse_late_or_second_id_marker_rejected :
    parseMigrationContent "001_init.sql"
        "-- +migrate Up\nCREATE TABLE users (id INT);\n-- +migrate ID: should_be_ignored" =
      Except.error ParseError.idMarkerNotFirst ∧
    parseMigrationContent "001_init.sql"
        "-- +migrate ID: first_id\n-- +migrate ID: second_id\n-- +migrate Up\nCREATE TABLE users (id INT);" =
      Except.error ParseError.duplicateIDMarker := by
  constructor
  · decide
  · decide

/-- C7. When ParseMigrations succeeds, the filenames it considered are
exactly the non-directory entries with extension .sql, they are processed
in ascending codepoint-wise lexicographic order, and the returned
migrations are the parses of those files in exactly that order. -/
theorem parseMigrations_sorted_considers_sql (fsys : List FSFile) (ms : List Migration)
    (hok : ParseMigrations fsys = Except.ok ms) :
    List.Sorted (fun a b => lexLe a b = true) (sortedSqlFilenames fsys) ∧
    (∀ n, n ∈ sortedSqlFilenames fsys ↔
      ∃ f ∈ fsys, f.isDir = false ∧ fileExt f.name = ".sql" ∧ f.name = n) ∧
    List.Forall₂ (fun n m => parseMigrationFile fsys n = Except.ok m)
      (sortedSqlFilenames fsys) ms := by
  refine ⟨List.sorted_insertionSort _ _, ?_, parseAll_ok fsys _ ms hok⟩
  intro n
  rw [show sortedSqlFilenames fsys =
    (sqlFilenames fsys).insertionSort (fun a b => lexLe a b = true) from rfl]
  rw [(List.perm_insertionSort (fun a b => lexLe a b = true) (sqlFilenames fsys)).mem_iff]
  simp only [sqlFilenames, List.mem_map, List.mem_filter]
  constructor
  · rintro ⟨f, ⟨hfm, hfp⟩, hfn⟩
    simp only [Bool.and_eq_true, Bool.not_eq_true', beq_iff_eq] at hfp
    exact ⟨f, hfm, hfp.1, hfp.2, hfn⟩
  · rintro ⟨f, hfm, hd, he, hn⟩
    refine ⟨f, ⟨hfm, ?_⟩, hn⟩
    simp only [Bool.and_eq_true, Bool.not_eq_true', beq_iff_eq]
    exact ⟨hd, he⟩

/-- Witness for C7: the demo tree parses; its considered names are the two
sql files in sorted order and the output is their parses in that order. -/
theorem parseMigrations_sorted_considers_sql_witness :
    List.Sorted (fun a b => lexLe a b = true) (sortedSqlFilenames fsysDemo) ∧
    (∀ n, n ∈ sortedSqlFilenames fsysDemo ↔
      ∃ f ∈ fsysDemo, f.isDir = false ∧ fileExt f.name = ".sql" ∧ f.name = n) ∧
    List.Forall₂ (fun n m => parseMigrationFile fsysDemo n = Except.ok m)
      (sortedSqlFilenames fsysDemo)
      [⟨"001_a", "A", "", ""⟩, ⟨"002_b", "B", "", ""⟩] :=
  parseMigrations_sorted_considers_sql fsysDemo
    [⟨"001_a", "A", "", ""⟩, ⟨"002_b", "B", "", ""⟩] (by decide)

/-- C8. Scheduler construction validates the cron expression eagerly: the
five ill-formed expressions of the specification are rejected at
construction and no scheduler is created, while the four well-formed ones
are accepted. -/
theorem scheduler_new_validates_cron_eagerly :
    SchedulerNew "@every abc" = false ∧ SchedulerNew "" = false ∧
    SchedulerNew "@invalid" = false ∧ SchedulerNew "* * * * * * *" = false ∧
    SchedulerNew "60 * * * *" = false ∧
    SchedulerNew "* * * * *" = true ∧ SchedulerNew "@hourly" = true ∧
    SchedulerNew "@every 30s" = true ∧ SchedulerNew "0 9 * * MON-FRI" = true := by
  decide

end Platforma
